import Mathlib

/-!
Verification of the chunking pipeline of `rag_system/src/main.rs`.

Text is shallowly embedded as `List Char` (`Str`); Rust's `str::len` is
modelled as character count, `split_whitespace` as `splitWS`, `str::trim`
as `trim`.  The chunking loop of `load_pdf` is embedded word by word
(`pushWord`, `chunkAll`), and the surrounding error handling as `load_pdf`
returning `Except`.  The ingestion loop of `main` (id assignment and
context-wrapped error propagation) is embedded as `mkDocs` and `ingest`.
-/

/-- Text, modelled as a list of characters. -/
abbrev Str := List Char

/-- Model of Rust's whitespace test used by `split_whitespace` and `trim`. -/
def isWS (c : Char) : Bool := c.isWhitespace

/-- Auxiliary splitter: walks the text, accumulating the current word. -/
def splitWSAux : Str → Str → List Str
  | [], cur => if cur = [] then [] else [cur]
  | c :: cs, cur =>
    if isWS c then
      if cur = [] then splitWSAux cs [] else cur :: splitWSAux cs []
    else splitWSAux cs (cur ++ [c])

/-- Model of Rust's `content.split_whitespace()`: the whitespace-delimited
words of a text, in order, with no empty words. -/
def splitWS (l : Str) : List Str := splitWSAux l []

/-- Drop leading whitespace (model of `str::trim_start`). -/
def trimLeft (l : Str) : Str := l.dropWhile isWS

/-- Drop trailing whitespace (model of `str::trim_end`). -/
def trimRight (l : Str) : Str := (l.reverse.dropWhile isWS).reverse

/-- Model of Rust's `str::trim`: drop leading and trailing whitespace. -/
def trim (l : Str) : Str := trimRight (trimLeft l)

/-- One iteration of the word loop in `load_pdf` (main.rs lines 33-44):
if the current chunk plus the word plus one more character would exceed
`chunkSize`, flush the trimmed current chunk (when non-empty); then append
the word and a space to the current chunk. -/
def pushWord (chunkSize : Nat) (st : List Str × Str) (w : Str) : List Str × Str :=
  let st1 :=
    if chunkSize < st.2.length + w.length + 1 then
      if st.2 = [] then st else (st.1 ++ [trim st.2], ([] : Str))
    else st
  (st1.1, st1.2 ++ w ++ [' '])

/-- The whole chunking loop of `load_pdf` over a sequence of extracted text
blobs (one per file matched by the glob), including the final flush of the
last chunk (main.rs lines 27-50), generalized over the chunk size. -/
def chunkAll (chunkSize : Nat) (blobs : List Str) : List Str :=
  let st := blobs.foldl (fun st b => (splitWS b).foldl (pushWord chunkSize) st)
    (([] : List Str), ([] : Str))
  if st.2 = [] then st.1 else st.1 ++ [trim st.2]

/-- The double-quote character, used by Rust's `{:?}` formatting of paths. -/
def dq : Char := Char.ofNat 34

/-- The error message of `load_pdf` for a contentless source
(`"No content found in PDF file: {:?}"` with the path shown quoted). -/
def noContentMsg (path : Str) : Str :=
  ("No content found in PDF file: ").toList ++ dq :: (path ++ [dq])

/-- Model of `load_pdf` (main.rs lines 22-57): chunk the extracted blobs with
the hard-coded chunk size 2000; fail when no chunks were produced. -/
def load_pdf (path : Str) (blobs : List Str) : Except Str (List Str) :=
  let chunks := chunkAll 2000 blobs
  if chunks = [] then Except.error (noContentMsg path) else Except.ok chunks

/-- Modelled from the spec (§4.1 reference accumulator algorithm), for the
refinement claim: for each word, if appending the word plus one separating
space to the accumulator would make its length exceed `chunkSize` and the
accumulator is non-empty, flush the accumulator trimmed of trailing
whitespace; then always append the word plus a trailing space. -/
def specPush (chunkSize : Nat) (st : List Str × Str) (w : Str) : List Str × Str :=
  let st1 :=
    if chunkSize < st.2.length + w.length + 1 ∧ st.2 ≠ [] then
      (st.1 ++ [trimRight st.2], ([] : Str))
    else st
  (st1.1, st1.2 ++ w ++ [' '])

/-- Modelled from the spec (§4.1): tokenize each blob into whitespace-delimited
words in order, run the reference accumulator over all words, and flush the
accumulator at the end if non-empty. -/
def specChunk (chunkSize : Nat) (blobs : List Str) : List Str :=
  let st := blobs.foldl (fun st b => (splitWS b).foldl (specPush chunkSize) st)
    (([] : List Str), ([] : Str))
  if st.2 = [] then st.1 else st.1 ++ [trimRight st.2]

/-- A word as produced by `splitWS`: non-empty and free of whitespace. -/
def goodWord (w : Str) : Prop := w ≠ [] ∧ ∀ c ∈ w, isWS c = false

/-- Words joined by single interior spaces: the content of a flushed chunk. -/
def joinSp : List Str → Str
  | [] => []
  | [w] => w
  | w :: x :: ws => w ++ ' ' :: joinSp (x :: ws)

/-- Words each followed by one space: the exact accumulator contents. -/
def joinTr : List Str → Str
  | [] => []
  | w :: ws => w ++ ' ' :: joinTr ws

/-- Word-level abstraction of one loop iteration: the state keeps the flushed
groups of words and the words of the current accumulator. -/
def wstep (chunkSize : Nat) (st : List (List Str) × List Str) (w : Str) :
    List (List Str) × List Str :=
  if chunkSize < (joinTr st.2).length + w.length + 1 ∧ st.2 ≠ [] then
    (st.1 ++ [st.2], [w])
  else (st.1, st.2 ++ [w])

/-- Word-level abstraction of the whole chunking loop. -/
def wchunk (chunkSize : Nat) (ws : List Str) : List (List Str) :=
  let st := ws.foldl (wstep chunkSize) (([] : List (List Str)), ([] : List Str))
  if st.2 = [] then st.1 else st.1 ++ [st.2]

/-- All words of all blobs, in order, as the loops of `load_pdf` visit them. -/
def allWords (blobs : List Str) : List Str := (blobs.map splitWS).flatten

/-- The `Document` struct of main.rs: a synthetic id and a chunk's content. -/
structure Document where
  id : Str
  content : Str
  deriving DecidableEq

/-- The ingestion loops of `main` (lines 82-95): enumerate a source's chunks
and tag each with the id `<label>_<index>`. -/
def mkDocs (label : Str) (chunks : List Str) : List Document :=
  chunks.enum.map fun p => { id := label ++ '_' :: Nat.toDigits 10 p.1, content := p.2 }

/-- Path of the first source, `documents_dir.join("01.pdf")`. -/
def path01 (dir : Str) : Str := dir ++ '/' :: ("01.pdf").toList

/-- Path of the second source, `documents_dir.join("02.pdf")`. -/
def path02 (dir : Str) : Str := dir ++ '/' :: ("02.pdf").toList

/-- Context message attached to a failure of the first source. -/
def ctx01 : Str := ("Failed to load 01.pdf").toList

/-- Context message attached to a failure of the second source. -/
def ctx02 : Str := ("Failed to load 02.pdf").toList

/-- An anyhow context wrapping: the context message, a separator, the cause. -/
def withCtx (ctx e : Str) : Str := ctx ++ ':' :: ' ' :: e

/-- The ingestion phase of `main` (lines 68-95): load and chunk both sources,
wrapping a failure with a context naming the failing file, and on success
produce the flat tagged document list handed to the embeddings builder. -/
def ingest (dir : Str) (blobs1 blobs2 : List Str) : Except Str (List Document) :=
  match load_pdf (path01 dir) blobs1 with
  | Except.error e => Except.error (withCtx ctx01 e)
  | Except.ok c1 =>
    match load_pdf (path02 dir) blobs2 with
    | Except.error e => Except.error (withCtx ctx02 e)
    | Except.ok c2 =>
      Except.ok (mkDocs (("moores_law").toList) c1 ++ mkDocs (("last_question").toList) c2)

/-! Lemmas about `splitWS`. -/

theorem splitWSAux_good (l : Str) : ∀ cur, (∀ c ∈ cur, isWS c = false) →
    ∀ w ∈ splitWSAux l cur, goodWord w := by
  induction l with
  | nil =>
    intro cur hcur w hw
    simp only [splitWSAux] at hw
    split at hw
    · simp at hw
    · next h =>
      simp only [List.mem_singleton] at hw
      subst hw
      exact ⟨h, hcur⟩
  | cons c cs ih =>
    intro cur hcur w hw
    simp only [splitWSAux] at hw
    split at hw
    · split at hw
      · exact ih [] (by simp) w hw
      · next h =>
        rcases List.mem_cons.mp hw with rfl | hw2
        · exact ⟨h, hcur⟩
        · exact ih [] (by simp) w hw2
    · next hns =>
      refine ih (cur ++ [c]) ?_ w hw
      intro x hx
      rcases List.mem_append.mp hx with hx | hx
      · exact hcur x hx
      · simp only [List.mem_singleton] at hx
        subst hx
        exact Bool.eq_false_iff.mpr hns

theorem splitWS_good (l : Str) : ∀ w ∈ splitWS l, goodWord w :=
  splitWSAux_good l [] (by simp)

theorem splitWSAux_word (w : Str) (hw : ∀ c ∈ w, isWS c = false) :
    ∀ rest cur, splitWSAux (w ++ rest) cur = splitWSAux rest (cur ++ w) := by
  induction w with
  | nil => intro rest cur; simp
  | cons c w ih =>
    intro rest cur
    have hc : isWS c = false := hw c (by simp)
    simp only [List.cons_append, splitWSAux, hc, Bool.false_eq_true, if_false]
    rw [List.append_eq, ih (fun x hx => hw x (by simp [hx])) rest (cur ++ [c])]
    simp

theorem splitWSAux_all_ws (l : Str) (h : ∀ c ∈ l, isWS c = true) :
    splitWSAux l [] = [] := by
  induction l with
  | nil => rfl
  | cons c cs ih =>
    simp only [splitWSAux, h c (by simp), if_true, if_pos rfl]
    exact ih fun x hx => h x (by simp [hx])

theorem splitWS_joinSp (ws : List Str) (h : ∀ w ∈ ws, goodWord w) :
    splitWS (joinSp ws) = ws := by
  induction ws with
  | nil => rfl
  | cons w tail ih =>
    have hw := h w (by simp)
    cases tail with
    | nil =>
      have h2 := splitWSAux_word w hw.2 [] []
      simp only [List.append_nil, List.nil_append] at h2
      simp only [joinSp, splitWS, h2, splitWSAux, if_neg hw.1]
    | cons x t =>
      have h2 := splitWSAux_word w hw.2 (' ' :: joinSp (x :: t)) []
      simp only [List.nil_append] at h2
      have hsp : isWS ' ' = true := by decide
      simp only [joinSp, splitWS] at h2 ⊢
      rw [h2]
      simp only [splitWSAux, hsp, if_true, if_neg hw.1]
      rw [show splitWSAux (joinSp (x :: t)) [] = splitWS (joinSp (x :: t)) from rfl,
        ih fun u hu => h u (by simp [hu])]

/-! Lemmas about `joinSp`, `joinTr` and trimming. -/

theorem joinTr_append_word (ws : List Str) (w : Str) :
    joinTr (ws ++ [w]) = joinTr ws ++ w ++ [' '] := by
  induction ws with
  | nil => simp [joinTr]
  | cons x t ih => simp [joinTr, ih]

theorem joinTr_eq_nil (ws : List Str) : joinTr ws = [] ↔ ws = [] := by
  cases ws with
  | nil => simp [joinTr]
  | cons w t => simp [joinTr]

theorem joinTr_eq_joinSp (ws : List Str) (hne : ws ≠ []) :
    joinTr ws = joinSp ws ++ [' '] := by
  induction ws with
  | nil => cases hne rfl
  | cons w t ih =>
    cases t with
    | nil => simp [joinTr, joinSp]
    | cons x t2 =>
      rw [show joinTr (w :: x :: t2) = w ++ ' ' :: joinTr (x :: t2) from rfl,
        ih (by simp), show joinSp (w :: x :: t2) = w ++ ' ' :: joinSp (x :: t2) from rfl]
      simp

theorem joinTr_length (ws : List Str) (hne : ws ≠ []) :
    (joinTr ws).length = (joinSp ws).length + 1 := by
  rw [joinTr_eq_joinSp ws hne]
  simp

theorem joinSp_head (ws : List Str) (h : ∀ w ∈ ws, goodWord w) (hne : ws ≠ []) :
    ∃ c t, joinSp ws = c :: t ∧ isWS c = false := by
  cases ws with
  | nil => cases hne rfl
  | cons w tail =>
    have hw := h w (by simp)
    obtain ⟨c, w2, rfl⟩ := List.exists_cons_of_ne_nil hw.1
    have hc : isWS c = false := hw.2 c (by simp)
    cases tail with
    | nil => exact ⟨c, w2, rfl, hc⟩
    | cons x t => exact ⟨c, w2 ++ ' ' :: joinSp (x :: t), by simp [joinSp], hc⟩

theorem joinSp_reverse_head (ws : List Str) (h : ∀ w ∈ ws, goodWord w) (hne : ws ≠ []) :
    ∃ c t, (joinSp ws).reverse = c :: t ∧ isWS c = false := by
  induction ws with
  | nil => cases hne rfl
  | cons w tail ih =>
    cases tail with
    | nil =>
      have hw := h w (by simp)
      obtain ⟨c, t, hct⟩ : ∃ c t, w.reverse = c :: t := by
        cases hrev : w.reverse with
        | nil => exact absurd (by simpa using hrev) hw.1
        | cons c t => exact ⟨c, t, rfl⟩
      refine ⟨c, t, by simpa [joinSp] using hct, hw.2 c ?_⟩
      exact List.mem_reverse.mp (by rw [hct]; simp)
    | cons x t2 =>
      obtain ⟨c, t, heq, hc⟩ := ih (fun u hu => h u (by simp [hu])) (by simp)
      refine ⟨c, t ++ ' ' :: w.reverse, ?_, hc⟩
      rw [show joinSp (w :: x :: t2) = w ++ ' ' :: joinSp (x :: t2) from rfl]
      rw [List.reverse_append, List.reverse_cons, heq]
      simp

theorem trimLeft_joinSp (ws : List Str) (h : ∀ w ∈ ws, goodWord w) (hne : ws ≠ []) :
    trimLeft (joinSp ws) = joinSp ws := by
  obtain ⟨c, t, heq, hc⟩ := joinSp_head ws h hne
  rw [trimLeft, heq, List.dropWhile_cons, if_neg (by simp [hc])]

theorem trimRight_joinSp (ws : List Str) (h : ∀ w ∈ ws, goodWord w) (hne : ws ≠ []) :
    trimRight (joinSp ws) = joinSp ws := by
  obtain ⟨c, t, heq, hc⟩ := joinSp_reverse_head ws h hne
  rw [trimRight, heq, List.dropWhile_cons, if_neg (by simp [hc]), ← heq,
    List.reverse_reverse]

theorem trim_joinSp (ws : List Str) (h : ∀ w ∈ ws, goodWord w) (hne : ws ≠ []) :
    trim (joinSp ws) = joinSp ws := by
  rw [trim, trimLeft_joinSp ws h hne, trimRight_joinSp ws h hne]

theorem trimRight_joinTr (ws : List Str) (h : ∀ w ∈ ws, goodWord w) (hne : ws ≠ []) :
    trimRight (joinTr ws) = joinSp ws := by
  obtain ⟨c, t, heq, hc⟩ := joinSp_reverse_head ws h hne
  rw [joinTr_eq_joinSp ws hne, trimRight, List.reverse_append]
  rw [show ([' '] : Str).reverse = [' '] from rfl, List.cons_append, List.nil_append]
  rw [List.dropWhile_cons, if_pos (by decide), heq, List.dropWhile_cons,
    if_neg (by simp [hc]), ← heq, List.reverse_reverse]

theorem trim_joinTr (ws : List Str) (h : ∀ w ∈ ws, goodWord w) (hne : ws ≠ []) :
    trim (joinTr ws) = joinSp ws := by
  obtain ⟨c, t, heq, hc⟩ := joinSp_head ws h hne
  have hleft : trimLeft (joinTr ws) = joinTr ws := by
    rw [joinTr_eq_joinSp ws hne, trimLeft, heq, List.cons_append, List.dropWhile_cons,
      if_neg (by simp [hc])]
  rw [trim, hleft, trimRight_joinTr ws h hne]

/-! The code's loop and the spec's loop both refine the word-level loop. -/

theorem wstep_flush (cs : Nat) (gs : List (List Str)) (cur : List Str) (w : Str)
    (hc : cs < (joinTr cur).length + w.length + 1 ∧ cur ≠ []) :
    wstep cs (gs, cur) w = (gs ++ [cur], [w]) := by
  simp [wstep, hc]

theorem wstep_keep (cs : Nat) (gs : List (List Str)) (cur : List Str) (w : Str)
    (hc : ¬ (cs < (joinTr cur).length + w.length + 1 ∧ cur ≠ [])) :
    wstep cs (gs, cur) w = (gs, cur ++ [w]) := by
  simp only [wstep, if_neg hc]

theorem wstep_snd_good (cs : Nat) (gs : List (List Str)) (cur : List Str) (w : Str)
    (hw : goodWord w) (hcur : ∀ x ∈ cur, goodWord x) :
    ∀ x ∈ (wstep cs (gs, cur) w).2, goodWord x := by
  unfold wstep
  split
  · intro x hx
    simp only [List.mem_singleton] at hx
    subst hx
    exact hw
  · intro x hx
    rcases List.mem_append.mp hx with h | h
    · exact hcur x h
    · simp only [List.mem_singleton] at h
      subst h
      exact hw

theorem pushWord_rel (cs : Nat) (gs : List (List Str)) (cur : List Str) (w : Str)
    (hcur : ∀ x ∈ cur, goodWord x) :
    pushWord cs (gs.map joinSp, joinTr cur) w =
      ((wstep cs (gs, cur) w).1.map joinSp, joinTr (wstep cs (gs, cur) w).2) := by
  by_cases hcond : cs < (joinTr cur).length + w.length + 1
  · by_cases hnil : cur = []
    · subst hnil
      rw [wstep_keep cs gs [] w (by simp)]
      simp [pushWord, joinTr, hcond]
    · rw [wstep_flush cs gs cur w ⟨hcond, hnil⟩]
      have hne : joinTr cur ≠ [] := fun h => hnil ((joinTr_eq_nil cur).mp h)
      simp only [pushWord, if_pos hcond, if_neg hne]
      rw [trim_joinTr cur hcur hnil]
      simp [joinTr]
  · rw [wstep_keep cs gs cur w fun h => hcond h.1]
    simp only [pushWord, if_neg hcond]
    rw [joinTr_append_word]

theorem specPush_rel (cs : Nat) (gs : List (List Str)) (cur : List Str) (w : Str)
    (hcur : ∀ x ∈ cur, goodWord x) :
    specPush cs (gs.map joinSp, joinTr cur) w =
      ((wstep cs (gs, cur) w).1.map joinSp, joinTr (wstep cs (gs, cur) w).2) := by
  by_cases hcond : cs < (joinTr cur).length + w.length + 1 ∧ cur ≠ []
  · rw [wstep_flush cs gs cur w hcond]
    have hne : joinTr cur ≠ [] := fun h => hcond.2 ((joinTr_eq_nil cur).mp h)
    simp only [specPush, if_pos (And.intro hcond.1 hne)]
    rw [trimRight_joinTr cur hcur hcond.2]
    simp [joinTr]
  · rw [wstep_keep cs gs cur w hcond]
    have hnc : ¬ (cs < (joinTr cur).length + w.length + 1 ∧ joinTr cur ≠ []) := by
      intro h
      exact hcond ⟨h.1, fun he => h.2 (by rw [he]; rfl)⟩
    simp only [specPush, if_neg hnc]
    rw [joinTr_append_word]

theorem foldl_pushWord_rel (cs : Nat) (ws : List Str) (hws : ∀ w ∈ ws, goodWord w) :
    ∀ gs cur, (∀ x ∈ cur, goodWord x) →
    ws.foldl (pushWord cs) (gs.map joinSp, joinTr cur) =
      ((ws.foldl (wstep cs) (gs, cur)).1.map joinSp,
        joinTr (ws.foldl (wstep cs) (gs, cur)).2) := by
  induction ws with
  | nil => intro gs cur _; rfl
  | cons w ws ih =>
    intro gs cur hcur
    have hw : goodWord w := hws w (by simp)
    rw [List.foldl_cons, pushWord_rel cs gs cur w hcur, List.foldl_cons]
    exact ih (fun u hu => hws u (by simp [hu])) (wstep cs (gs, cur) w).1
      (wstep cs (gs, cur) w).2 (wstep_snd_good cs gs cur w hw hcur)

theorem foldl_specPush_rel (cs : Nat) (ws : List Str) (hws : ∀ w ∈ ws, goodWord w) :
    ∀ gs cur, (∀ x ∈ cur, goodWord x) →
    ws.foldl (specPush cs) (gs.map joinSp, joinTr cur) =
      ((ws.foldl (wstep cs) (gs, cur)).1.map joinSp,
        joinTr (ws.foldl (wstep cs) (gs, cur)).2) := by
  induction ws with
  | nil => intro gs cur _; rfl
  | cons w ws ih =>
    intro gs cur hcur
    have hw : goodWord w := hws w (by simp)
    rw [List.foldl_cons, specPush_rel cs gs cur w hcur, List.foldl_cons]
    exact ih (fun u hu => hws u (by simp [hu])) (wstep cs (gs, cur) w).1
      (wstep cs (gs, cur) w).2 (wstep_snd_good cs gs cur w hw hcur)

theorem wfold_snd_good (cs : Nat) (ws : List Str) (hws : ∀ w ∈ ws, goodWord w) :
    ∀ gs cur, (∀ x ∈ cur, goodWord x) →
    ∀ x ∈ (ws.foldl (wstep cs) (gs, cur)).2, goodWord x := by
  induction ws with
  | nil => intro gs cur hcur; exact hcur
  | cons w ws ih =>
    intro gs cur hcur
    rw [List.foldl_cons]
    exact ih (fun u hu => hws u (by simp [hu])) (wstep cs (gs, cur) w).1
      (wstep cs (gs, cur) w).2
      (wstep_snd_good cs gs cur w (hws w (by simp)) hcur)

theorem allWords_good (blobs : List Str) : ∀ w ∈ allWords blobs, goodWord w := by
  intro w hw
  rw [allWords, List.mem_flatten] at hw
  obtain ⟨l, hl, hwl⟩ := hw
  rw [List.mem_map] at hl
  obtain ⟨b, _, rfl⟩ := hl
  exact splitWS_good b w hwl

theorem chunkAll_eq_wchunk (cs : Nat) (blobs : List Str) :
    chunkAll cs blobs = (wchunk cs (allWords blobs)).map joinSp := by
  unfold chunkAll wchunk
  rw [show (blobs.foldl (fun st b => (splitWS b).foldl (pushWord cs) st)
        (([] : List Str), ([] : Str))) =
      (allWords blobs).foldl (pushWord cs) (([] : List Str), ([] : Str)) from by
    rw [allWords, List.foldl_flatten, List.foldl_map]]
  rw [show (([] : List Str), ([] : Str)) =
      (([] : List (List Str)).map joinSp, joinTr ([] : List Str)) from rfl]
  rw [foldl_pushWord_rel cs (allWords blobs) (allWords_good blobs) [] [] (by simp)]
  set st := (allWords blobs).foldl (wstep cs) (([] : List (List Str)), ([] : List Str))
  by_cases hnil : st.2 = []
  · rw [if_pos hnil, if_pos ((joinTr_eq_nil st.2).mpr hnil)]
  · rw [if_neg hnil, if_neg (fun h => hnil ((joinTr_eq_nil st.2).mp h))]
    rw [trim_joinTr st.2 (wfold_snd_good cs (allWords blobs) (allWords_good blobs)
      [] [] (by simp)) hnil]
    simp

theorem specChunk_eq_wchunk (cs : Nat) (blobs : List Str) :
    specChunk cs blobs = (wchunk cs (allWords blobs)).map joinSp := by
  unfold specChunk wchunk
  rw [show (blobs.foldl (fun st b => (splitWS b).foldl (specPush cs) st)
        (([] : List Str), ([] : Str))) =
      (allWords blobs).foldl (specPush cs) (([] : List Str), ([] : Str)) from by
    rw [allWords, List.foldl_flatten, List.foldl_map]]
  rw [show (([] : List Str), ([] : Str)) =
      (([] : List (List Str)).map joinSp, joinTr ([] : List Str)) from rfl]
  rw [foldl_specPush_rel cs (allWords blobs) (allWords_good blobs) [] [] (by simp)]
  set st := (allWords blobs).foldl (wstep cs) (([] : List (List Str)), ([] : List Str))
  by_cases hnil : st.2 = []
  · rw [if_pos hnil, if_pos ((joinTr_eq_nil st.2).mpr hnil)]
  · rw [if_neg hnil, if_neg (fun h => hnil ((joinTr_eq_nil st.2).mp h))]
    rw [trimRight_joinTr st.2 (wfold_snd_good cs (allWords blobs) (allWords_good blobs)
      [] [] (by simp)) hnil]
    simp

/-! Invariants of the word-level loop. -/

/-- A flushed group is a single word or fits, with its trailing space,
within the chunk size. -/
def okGroup (cs : Nat) (g : List Str) : Prop := g.length = 1 ∨ (joinTr g).length ≤ cs

theorem wfold_ok (cs : Nat) (ws : List Str) :
    ∀ gs cur, (∀ g ∈ gs, okGroup cs g) → (cur = [] ∨ okGroup cs cur) →
    (∀ g ∈ ((ws.foldl (wstep cs) (gs, cur)).1), okGroup cs g) ∧
      ((ws.foldl (wstep cs) (gs, cur)).2 = [] ∨
        okGroup cs (ws.foldl (wstep cs) (gs, cur)).2) := by
  induction ws with
  | nil => intro gs cur h1 h2; exact ⟨h1, h2⟩
  | cons w ws ih =>
    intro gs cur h1 h2
    rw [List.foldl_cons]
    by_cases hc : cs < (joinTr cur).length + w.length + 1 ∧ cur ≠ []
    · rw [wstep_flush cs gs cur w hc]
      refine ih (gs ++ [cur]) [w] ?_ (Or.inr (Or.inl rfl))
      intro g hg
      rcases List.mem_append.mp hg with h | h
      · exact h1 g h
      · simp only [List.mem_singleton] at h
        subst h
        exact h2.resolve_left hc.2
    · rw [wstep_keep cs gs cur w hc]
      refine ih gs (cur ++ [w]) h1 (Or.inr ?_)
      by_cases hnil : cur = []
      · subst hnil
        exact Or.inl (by simp)
      · have hle : (joinTr cur).length + w.length + 1 ≤ cs := by
          rcases Nat.lt_or_ge cs ((joinTr cur).length + w.length + 1) with h | h
          · exact absurd ⟨h, hnil⟩ hc
          · exact h
        right
        rw [joinTr_append_word]
        simp only [List.length_append, List.length_singleton]
        omega

theorem wchunk_ok (cs : Nat) (ws : List Str) :
    ∀ g ∈ wchunk cs ws, okGroup cs g := by
  have h := wfold_ok cs ws [] [] (by simp) (Or.inl rfl)
  intro g hg
  simp only [wchunk] at hg
  split at hg
  · exact h.1 g hg
  · rcases List.mem_append.mp hg with h2 | h2
    · exact h.1 g h2
    · simp only [List.mem_singleton] at h2
      subst h2
      next hne => exact (h.2).resolve_left hne

theorem wstep_fst_good (cs : Nat) (gs : List (List Str)) (cur : List Str) (w : Str)
    (hgs : ∀ g ∈ gs, g ≠ [] ∧ ∀ x ∈ g, goodWord x) (hcur : ∀ x ∈ cur, goodWord x) :
    ∀ g ∈ (wstep cs (gs, cur) w).1, g ≠ [] ∧ ∀ x ∈ g, goodWord x := by
  unfold wstep
  split
  · next hc =>
    intro g hg
    rcases List.mem_append.mp hg with h | h
    · exact hgs g h
    · simp only [List.mem_singleton] at h
      subst h
      exact ⟨hc.2, hcur⟩
  · exact hgs

theorem wfold_fst_good (cs : Nat) (ws : List Str) (hws : ∀ w ∈ ws, goodWord w) :
    ∀ gs cur, (∀ g ∈ gs, g ≠ [] ∧ ∀ x ∈ g, goodWord x) → (∀ x ∈ cur, goodWord x) →
    ∀ g ∈ (ws.foldl (wstep cs) (gs, cur)).1, g ≠ [] ∧ ∀ x ∈ g, goodWord x := by
  induction ws with
  | nil => intro gs cur h1 _; exact h1
  | cons w ws ih =>
    intro gs cur h1 hcur
    rw [List.foldl_cons]
    exact ih (fun u hu => hws u (by simp [hu])) (wstep cs (gs, cur) w).1
      (wstep cs (gs, cur) w).2
      (wstep_fst_good cs gs cur w h1 hcur)
      (wstep_snd_good cs gs cur w (hws w (by simp)) hcur)

theorem wchunk_good (cs : Nat) (ws : List Str) (hws : ∀ w ∈ ws, goodWord w) :
    ∀ g ∈ wchunk cs ws, g ≠ [] ∧ ∀ x ∈ g, goodWord x := by
  intro g hg
  simp only [wchunk] at hg
  split at hg
  · exact wfold_fst_good cs ws hws [] [] (by simp) (by simp) g hg
  · rcases List.mem_append.mp hg with h2 | h2
    · exact wfold_fst_good cs ws hws [] [] (by simp) (by simp) g h2
    · simp only [List.mem_singleton] at h2
      subst h2
      next hne =>
      exact ⟨hne, wfold_snd_good cs ws hws [] [] (by simp)⟩

theorem wfold_flatten (cs : Nat) (ws : List Str) :
    ∀ gs cur, ((ws.foldl (wstep cs) (gs, cur)).1).flatten ++
        (ws.foldl (wstep cs) (gs, cur)).2 = gs.flatten ++ cur ++ ws := by
  induction ws with
  | nil => intro gs cur; simp
  | cons w ws ih =>
    intro gs cur
    rw [List.foldl_cons]
    by_cases hc : cs < (joinTr cur).length + w.length + 1 ∧ cur ≠ []
    · rw [wstep_flush cs gs cur w hc, ih]
      simp
    · rw [wstep_keep cs gs cur w hc, ih]
      simp

theorem wchunk_flatten (cs : Nat) (ws : List Str) :
    (wchunk cs ws).flatten = ws := by
  have h := wfold_flatten cs ws [] []
  simp only [List.flatten_nil, List.nil_append] at h
  simp only [wchunk]
  split
  · next hnil =>
    rw [hnil, List.append_nil] at h
    exact h
  · rw [List.flatten_append]
    simpa using h

theorem chunkAll_words (cs : Nat) (blobs : List Str) :
    ((chunkAll cs blobs).map splitWS).flatten = allWords blobs := by
  rw [chunkAll_eq_wchunk, List.map_map]
  have hmap : List.map (splitWS ∘ joinSp) (wchunk cs (allWords blobs)) =
      List.map id (wchunk cs (allWords blobs)) :=
    List.map_congr_left fun g hg =>
      splitWS_joinSp g (wchunk_good cs (allWords blobs) (allWords_good blobs) g hg).2
  rw [hmap, List.map_id, wchunk_flatten]

theorem enum_map_fst_apply {α β : Type} (l : List α) (f : Nat → β) :
    (l.enum.map fun p => f p.1) = (List.range l.length).map f := by
  rw [show (fun p : Nat × α => f p.1) = f ∘ Prod.fst from rfl, ← List.map_map,
    List.enum_map_fst]

/-! The claims. -/

/-- C1: for every input text and positive chunk size, a passage that exceeds
the chunk size consists of exactly one word, emitted whole, and a passage of
two or more words never exceeds the chunk size. -/
theorem chunk_length_bound (cs : Nat) (t : Str) (p : Str)
    (_hcs : 0 < cs) (hp : p ∈ chunkAll cs [t]) :
    (cs < p.length → splitWS p = [p]) ∧ (2 ≤ (splitWS p).length → p.length ≤ cs) := by
  rw [chunkAll_eq_wchunk] at hp
  obtain ⟨g, hg, rfl⟩ := List.mem_map.mp hp
  have hgood := wchunk_good cs (allWords [t]) (allWords_good [t]) g hg
  have hok := wchunk_ok cs (allWords [t]) g hg
  have hsp : splitWS (joinSp g) = g := splitWS_joinSp g hgood.2
  constructor
  · intro hlen
    rcases hok with h1 | h1
    · obtain ⟨w, rfl⟩ := List.length_eq_one.mp h1
      rw [hsp]
      simp [joinSp]
    · exfalso
      rw [joinTr_length g hgood.1] at h1
      omega
  · intro h2
    rw [hsp] at h2
    rcases hok with h1 | h1
    · omega
    · rw [joinTr_length g hgood.1] at h1
      omega

/-- Witness for C1 at the boundary scenario input. -/
theorem chunk_length_bound_witness :
    (5 < (("a b").toList).length → splitWS (("a b").toList) = [("a b").toList]) ∧
      (2 ≤ (splitWS (("a b").toList)).length → (("a b").toList).length ≤ 5) :=
  chunk_length_bound 5 (("a b c d e").toList) (("a b").toList) (by decide) (by decide)

/-- C2: concatenating the whitespace-delimited words of all passages produced
by the chunking loop of `load_pdf` (chunk size 2000), in passage order, yields
exactly the word sequence of the input text. -/
theorem chunk_words_preserved (t : Str) :
    ((chunkAll 2000 [t]).map splitWS).flatten = splitWS t := by
  rw [chunkAll_words]
  simp [allWords]

/-- C3, counterexample: on the input `"a b c d e"` with chunk size 5 the code
does not produce `["a b c", "d e"]` (its accumulator keeps a trailing space,
so the flush fires one word earlier than the scenario computes). -/
theorem scenario_counterexample :
    chunkAll 5 [("a b c d e").toList] ≠ [("a b c").toList, ("d e").toList] := by
  decide

/-- C3, amended: chunking `"a b c d e"` with chunk size 5 yields exactly the
passages `["a b", "c d", "e"]`. -/
theorem scenario_amended :
    chunkAll 5 [("a b c d e").toList] =
      [("a b").toList, ("c d").toList, ("e").toList] := by
  decide

/-- C4: for every input and positive chunk size, the code's chunking loop
produces exactly the output of the spec's §4.1 reference accumulator
algorithm. -/
theorem chunker_refines_spec (cs : Nat) (blobs : List Str) (_hcs : 0 < cs) :
    chunkAll cs blobs = specChunk cs blobs := by
  rw [chunkAll_eq_wchunk, specChunk_eq_wchunk]

/-- Witness for C4 at a concrete input. -/
theorem chunker_refines_spec_witness :
    chunkAll 5 [("a b c d e").toList] = specChunk 5 [("a b c d e").toList] :=
  chunker_refines_spec 5 [("a b c d e").toList] (by decide)

/-- C5: when every extracted blob is empty or all-whitespace, `load_pdf`
fails with the no-content error that contains the source path, and `load_pdf`
never returns an empty passage list. -/
theorem no_content_error (path : Str) (blobs : List Str) :
    ((∀ b ∈ blobs, ∀ c ∈ b, isWS c = true) →
      load_pdf path blobs = Except.error (noContentMsg path) ∧
        ∃ l r, noContentMsg path = l ++ path ++ r) ∧
    ∀ r, load_pdf path blobs = Except.ok r → r ≠ [] := by
  constructor
  · intro hws
    have hall : allWords blobs = [] := by
      rw [allWords, List.flatten_eq_nil_iff]
      intro l hl
      rw [List.mem_map] at hl
      obtain ⟨b, hb, rfl⟩ := hl
      exact splitWSAux_all_ws b (hws b hb)
    have hchunks : chunkAll 2000 blobs = [] := by
      rw [chunkAll_eq_wchunk, hall]
      rfl
    refine ⟨?_, ("No content found in PDF file: ").toList ++ [dq], [dq], by
      simp [noContentMsg]⟩
    simp only [load_pdf, hchunks]
    rfl
  · intro r hr
    simp only [load_pdf] at hr
    split at hr
    · exact absurd hr (by simp)
    · next hne =>
      cases hr
      exact hne

/-- Witness for C5 on an empty blob and an all-whitespace blob. -/
theorem no_content_error_witness :
    load_pdf (("x").toList) [("").toList, ("  ").toList] =
        Except.error (noContentMsg (("x").toList)) ∧
      ∃ l r, noContentMsg (("x").toList) = l ++ ("x").toList ++ r :=
  (no_content_error (("x").toList) [("").toList, ("  ").toList]).1 (by decide)

/-- C6: every passage returned by `load_pdf` is non-empty and carries no
leading or trailing whitespace. -/
theorem passages_trimmed (path : Str) (blobs : List Str) (r : List Str)
    (hr : load_pdf path blobs = Except.ok r) :
    ∀ p ∈ r, p ≠ [] ∧ trim p = p := by
  have hr2 : r = chunkAll 2000 blobs := by
    simp only [load_pdf] at hr
    split at hr
    · exact absurd hr (by simp)
    · cases hr
      rfl
  intro p hp
  rw [hr2, chunkAll_eq_wchunk] at hp
  obtain ⟨g, hg, rfl⟩ := List.mem_map.mp hp
  have hgood := wchunk_good 2000 (allWords blobs) (allWords_good blobs) g hg
  refine ⟨?_, trim_joinSp g hgood.2 hgood.1⟩
  obtain ⟨c, t, heq, _⟩ := joinSp_head g hgood.2 hgood.1
  rw [heq]
  simp

/-- Witness for C6 on a one-word source. -/
theorem passages_trimmed_witness : (("a").toList ≠ [] ∧ trim (("a").toList) = ("a").toList) :=
  passages_trimmed (("x").toList) [("a").toList] [("a").toList] rfl
    (("a").toList) (by decide)

/-- C7: for a source labeled `L` with `N` passages, the ingestion loop
assigns exactly the ids `L_0, ..., L_{N-1}`, in order. -/
theorem ids_enumerated (label : Str) (chunks : List Str) :
    (mkDocs label chunks).map Document.id =
      (List.range chunks.length).map (fun i => label ++ '_' :: Nat.toDigits 10 i) := by
  rw [mkDocs, List.map_map]
  exact enum_map_fst_apply chunks fun i => label ++ '_' :: Nat.toDigits 10 i

/-- C8: if loading or chunking of either source fails, `main`'s ingestion
aborts with a contextualized error naming the failing file, and documents are
only submitted when both sources loaded. -/
theorem ingestion_aborts (dir : Str) (blobs1 blobs2 : List Str) (e : Str) :
    (load_pdf (path01 dir) blobs1 = Except.error e →
      ingest dir blobs1 blobs2 = Except.error (withCtx ctx01 e) ∧
        ∃ l r, withCtx ctx01 e = l ++ ("01.pdf").toList ++ r) ∧
    (∀ c1, load_pdf (path01 dir) blobs1 = Except.ok c1 →
      load_pdf (path02 dir) blobs2 = Except.error e →
      ingest dir blobs1 blobs2 = Except.error (withCtx ctx02 e) ∧
        ∃ l r, withCtx ctx02 e = l ++ ("02.pdf").toList ++ r) ∧
    ∀ docs, ingest dir blobs1 blobs2 = Except.ok docs →
      ∃ c1 c2, load_pdf (path01 dir) blobs1 = Except.ok c1 ∧
        load_pdf (path02 dir) blobs2 = Except.ok c2 ∧
        docs = mkDocs (("moores_law").toList) c1 ++
          mkDocs (("last_question").toList) c2 := by
  refine ⟨?_, ?_, ?_⟩
  · intro h
    have hstep : ingest dir blobs1 blobs2 = Except.error (withCtx ctx01 e) := by
      unfold ingest
      rw [h]
    have hsplit : ctx01 = ("Failed to load ").toList ++ ("01.pdf").toList := by decide
    exact ⟨hstep, ("Failed to load ").toList, ':' :: ' ' :: e, by
      rw [withCtx, hsplit, List.append_assoc]⟩
  · intro c1 h1 h2
    have hstep : ingest dir blobs1 blobs2 = Except.error (withCtx ctx02 e) := by
      unfold ingest
      rw [h1, h2]
    have hsplit : ctx02 = ("Failed to load ").toList ++ ("02.pdf").toList := by decide
    exact ⟨hstep, ("Failed to load ").toList, ':' :: ' ' :: e, by
      rw [withCtx, hsplit, List.append_assoc]⟩
  · intro docs h
    unfold ingest at h
    cases hl1 : load_pdf (path01 dir) blobs1 with
    | error e1 =>
      rw [hl1] at h
      exact absurd h (by simp)
    | ok c1 =>
      rw [hl1] at h
      cases hl2 : load_pdf (path02 dir) blobs2 with
      | error e2 =>
        rw [hl2] at h
        exact absurd h (by simp)
      | ok c2 =>
        rw [hl2] at h
        cases h
        exact ⟨c1, c2, rfl, rfl, rfl⟩

/-- Witness for C8: an empty-content first source aborts the run. -/
theorem ingestion_aborts_witness :
    ingest (("d").toList) [] [("a").toList] =
        Except.error (withCtx ctx01 (noContentMsg (path01 (("d").toList)))) ∧
      ∃ l r, withCtx ctx01 (noContentMsg (path01 (("d").toList))) =
        l ++ ("01.pdf").toList ++ r :=
  (ingestion_aborts (("d").toList) [] [("a").toList]
    (noContentMsg (path01 (("d").toList)))).1 rfl

/-- C9: a single `load_pdf` call over several blobs does not reset the
accumulator between blobs: here one produced passage holds the words of both
blobs. -/
theorem accumulator_spans_blobs :
    load_pdf (("p").toList) [("hello").toList, ("world").toList] =
        Except.ok [("hello world").toList] ∧
      splitWS (("hello world").toList) =
        splitWS (("hello").toList) ++ splitWS (("world").toList) ∧
      splitWS (("hello").toList) ≠ [] ∧ splitWS (("world").toList) ≠ [] :=
  ⟨rfl, by decide, by decide, by decide⟩

/-- C10: `load_pdf` always chunks with the fixed bound 2000: its output is the
reference (§4.1) chunking at chunk size 2000, wrapped in the no-content check. -/
theorem fixed_chunk_size (path : Str) (blobs : List Str) :
    load_pdf path blobs =
      if specChunk 2000 blobs = [] then Except.error (noContentMsg path)
      else Except.ok (specChunk 2000 blobs) := by
  have h : chunkAll 2000 blobs = specChunk 2000 blobs := by
    rw [chunkAll_eq_wchunk, specChunk_eq_wchunk]
  simp only [load_pdf, h]
